import Mathlib

/-!
Verification of the annotation-extraction core of the highlights-sidebar
plugin (src/main.ts): the line-based parser for highlights, comments and
footnote definitions, the sort and filter helpers, the settings load/merge
path, and the section render plan.

Documents and item texts are modelled as `List Char`; sort-order values are
modelled as `String`, matching their runtime representation (the TypeScript
`SortOrder` union of string literals).  JavaScript regular-expression
`matchAll` scanning is embedded as an explicit left-to-right scanner with the
exact non-greedy, non-overlapping semantics of the patterns used in the code.
-/

namespace HighlightsSidebar

inductive ItemType where
  | highlight
  | comment
  | footnote
deriving DecidableEq

/-- `ParsedItem` from src/main.ts: type, extracted text, 0-based line,
character offset within the line, and length of the full match. -/
structure ParsedItem where
  type : ItemType
  text : List Char
  line : Nat
  ch : Nat
  matchLength : Nat
deriving DecidableEq

/-- One regex match: start index within the line, extracted text
(the capture for delimited patterns, the reconstructed footnote string for
footnotes), and full match length including delimiters. -/
structure RawMatch where
  index : Nat
  text : List Char
  len : Nat
deriving DecidableEq

/-- The JavaScript whitespace class used by `String.prototype.trim` and the
regex `\s` (common members; the exotic Unicode space separators are included
as far as the source document can contain them in practice). -/
def jsSpace (c : Char) : Bool :=
  c = ' ' || c = '\t' || c = '\n' || c = '\r' || c = '\x0b' || c = '\x0c' ||
  c = ' ' || c = '﻿'

/-- `String.prototype.trim`: strip leading and trailing JS whitespace. -/
def trimList (s : List Char) : List Char :=
  ((s.dropWhile jsSpace).reverse.dropWhile jsSpace).reverse

/-- `String.prototype.toLowerCase` (code-point lowering). -/
def lowerList (s : List Char) : List Char :=
  s.map Char.toLower

/-- A string has no leading and no trailing JS whitespace. -/
def noEdgeSpace (s : List Char) : Bool :=
  !(s.head?.elim false jsSpace) && !(s.getLast?.elim false jsSpace)

/-- Character comparison, optionally case-insensitive (the `i` regex flag). -/
def lowerEq (ci : Bool) (a b : Char) : Bool :=
  if ci then a.toLower = b.toLower else a = b

/-- Does `s` start with the pattern `p` (under the given case sensitivity)? -/
def startsWithCI (ci : Bool) : List Char → List Char → Bool
  | [], _ => true
  | _ :: _, [] => false
  | p :: ps, c :: cs => lowerEq ci p c && startsWithCI ci ps cs

/-- Find the first occurrence of the closing delimiter `cl` in `s`; return
the text before it and the text after it.  This is the lazy `(.*?)` capture
followed by the literal closing delimiter. -/
def splitClose (ci : Bool) (cl : List Char) : List Char → Option (List Char × List Char)
  | [] => none
  | c :: cs =>
    if startsWithCI ci cl (c :: cs) then some ([], (c :: cs).drop cl.length)
    else
      match splitClose ci cl cs with
      | some (pre, rest) => some (c :: pre, rest)
      | none => none

/-- `line.matchAll(/op(.*?)cl/g)`: left-to-right, non-greedy, non-overlapping.
At each position, if the opening delimiter matches and a closing delimiter
follows, the shortest span is taken and scanning resumes after it; otherwise
the scan advances one character.  `fuel` bounds the recursion; it is
initialised to the line length, which suffices because every step consumes at
least one character. -/
def scanDelimAux (ci : Bool) (op cl : List Char) :
    Nat → List Char → Nat → List RawMatch
  | 0, _, _ => []
  | _ + 1, [], _ => []
  | fuel + 1, c :: cs, i =>
    if startsWithCI ci op (c :: cs) then
      match splitClose ci cl ((c :: cs).drop op.length) with
      | some (inner, rest) =>
        ⟨i, inner, op.length + inner.length + cl.length⟩ ::
          scanDelimAux ci op cl fuel rest (i + op.length + inner.length + cl.length)
      | none => scanDelimAux ci op cl fuel cs (i + 1)
    else scanDelimAux ci op cl fuel cs (i + 1)

def scanDelim (ci : Bool) (op cl : List Char) (s : List Char) : List RawMatch :=
  scanDelimAux ci op cl s.length s 0

/-- Attempt to match `/\[\^([^\]]+)\]:\s*(.*)/` at the start of `cs`.
Returns the footnote id, the body (after the greedy whitespace run), and the
full match length (which always reaches the end of the line, because `(.*)`
is greedy and `.` matches every character of a newline-free line). -/
def footnoteHere (cs : List Char) : Option (List Char × List Char × Nat) :=
  if startsWithCI false ['[', '^'] cs then
    if (cs.drop 2).takeWhile (fun c => c != ']') = [] then none
    else
      if startsWithCI false [']', ':'] ((cs.drop 2).dropWhile (fun c => c != ']')) then
        some ((cs.drop 2).takeWhile (fun c => c != ']'),
          ((((cs.drop 2).dropWhile (fun c => c != ']')).drop 2).dropWhile jsSpace),
          2 + ((cs.drop 2).takeWhile (fun c => c != ']')).length + 2 +
            ((((cs.drop 2).dropWhile (fun c => c != ']')).drop 2).takeWhile jsSpace).length +
            ((((cs.drop 2).dropWhile (fun c => c != ']')).drop 2).dropWhile jsSpace).length)
      else none
  else none

/-- `line.matchAll(/\[\^([^\]]+)\]:\s*(.*)/g)`: the emitted text is the
reconstructed `[^id]: body` string (a literal `: ` is injected between id and
body, regardless of the original spacing). -/
def scanFootnoteAux : Nat → List Char → Nat → List RawMatch
  | 0, _, _ => []
  | _ + 1, [], _ => []
  | fuel + 1, c :: cs, i =>
    match footnoteHere (c :: cs) with
    | some (id, body, len) =>
      ⟨i, ('[' :: '^' :: id) ++ (']' :: ':' :: ' ' :: body), len⟩ ::
        scanFootnoteAux fuel ((c :: cs).drop len) (i + len)
    | none => scanFootnoteAux fuel cs (i + 1)

def scanFootnote (s : List Char) : List RawMatch :=
  scanFootnoteAux s.length s 0

def mkItem (t : ItemType) (lineIdx : Nat) (m : RawMatch) : ParsedItem :=
  ⟨t, m.text, lineIdx, m.index, m.len⟩

def mkTrimmedItem (t : ItemType) (lineIdx : Nat) (m : RawMatch) : ParsedItem :=
  ⟨t, trimList m.text, lineIdx, m.index, m.len⟩

/-- One iteration of the per-line loop of `parseContent`: the five patterns
are scanned in their fixed source order, each over the whole line. -/
def parseLine (lineIdx : Nat) (line : List Char) : List ParsedItem :=
  (scanDelim false ['=', '='] ['=', '='] line).map (mkItem .highlight lineIdx)
  ++ (scanDelim true ['<', 'm', 'a', 'r', 'k', '>'] ['<', '/', 'm', 'a', 'r', 'k', '>'] line).map
      (mkItem .highlight lineIdx)
  ++ (scanDelim false ['%', '%'] ['%', '%'] line).map (mkTrimmedItem .comment lineIdx)
  ++ (scanDelim false ['<', '!', '-', '-'] ['-', '-', '>'] line).map (mkTrimmedItem .comment lineIdx)
  ++ (scanFootnote line).map (mkItem .footnote lineIdx)

def parseContentAux : Nat → List (List Char) → List ParsedItem
  | _, [] => []
  | i, l :: ls => parseLine i l ++ parseContentAux (i + 1) ls

/-- `parseContent` from src/main.ts: split on newline, scan each line. -/
def parseContent (content : List Char) : List ParsedItem :=
  parseContentAux 0 (content.splitOn '\n')

-- ── Sort helper ────────────────────────────────────────────────────────────

/-- `(a, b) => a.line - b.line || a.ch - b.ch` as a total preorder:
`a` may stay before `b` iff the comparator is non-positive. -/
def lineAscLE (a b : ParsedItem) : Bool :=
  a.line < b.line || (a.line = b.line && a.ch ≤ b.ch)

/-- `(a, b) => b.line - a.line || b.ch - a.ch`. -/
def lineDescLE (a b : ParsedItem) : Bool :=
  b.line < a.line || (a.line = b.line && b.ch ≤ a.ch)

/-- `localeCompare` with base sensitivity, modelled as case-insensitive
code-point comparison (the locale-dependent collation of the host is
approximated; no claim depends on the relative order of distinct letters). -/
def lexLowerLE : List Char → List Char → Bool
  | [], _ => true
  | _ :: _, [] => false
  | a :: as, b :: bs =>
    if a.toLower = b.toLower then lexLowerLE as bs
    else decide (a.toLower < b.toLower)

def azLE (a b : ParsedItem) : Bool := lexLowerLE a.text b.text

def zaLE (a b : ParsedItem) : Bool := lexLowerLE b.text a.text

/-- `sortItems` from src/main.ts.  `Array.prototype.sort` with a consistent
comparator is a stable sort, embedded as `List.mergeSort`.  The `default`
branch of the `switch` returns the (unsorted) copy of the input. -/
def sortItems (items : List ParsedItem) (order : String) : List ParsedItem :=
  if order = "line-asc" then items.mergeSort lineAscLE
  else if order = "line-desc" then items.mergeSort lineDescLE
  else if order = "a-z" then items.mergeSort azLE
  else if order = "z-a" then items.mergeSort zaLE
  else items

-- ── Filter (search query), from renderSections ─────────────────────────────

/-- `hay.includes(needle)`: substring containment. -/
def containsSub : List Char → List Char → Bool
  | [], needle => needle.isEmpty
  | c :: cs, needle => startsWithCI false needle (c :: cs) || containsSub cs needle

/-- The query filter at the top of `renderSections`:
`query = searchQuery.toLowerCase().trim()`; a non-empty query keeps the items
whose lower-cased text contains it. -/
def filterItems (items : List ParsedItem) (searchQuery : List Char) : List ParsedItem :=
  if (trimList (lowerList searchQuery)).length > 0 then
    items.filter (fun it => containsSub (lowerList it.text) (trimList (lowerList searchQuery)))
  else items

-- ── Settings ───────────────────────────────────────────────────────────────

structure SectionFlags where
  highlight : Bool
  comment : Bool
  footnote : Bool
deriving DecidableEq

structure SectionSorts where
  highlight : String
  comment : String
  footnote : String
deriving DecidableEq

structure HighlightsSidebarSettings where
  fontSize : Int
  showHighlights : Bool
  showComments : Bool
  showFootnotes : Bool
  defaultSort : String
  sectionsCollapsed : SectionFlags
  sectionSorts : SectionSorts
deriving DecidableEq

def DEFAULT_SETTINGS : HighlightsSidebarSettings :=
  { fontSize := 13
    showHighlights := true
    showComments := true
    showFootnotes := true
    defaultSort := "line-asc"
    sectionsCollapsed := ⟨false, false, false⟩
    sectionSorts := ⟨"line-asc", "line-asc", "line-asc"⟩ }

/-- The persisted blob: every field may be absent (`Object.assign` only
copies properties that are present). -/
structure PersistedFlags where
  highlight : Option Bool
  comment : Option Bool
  footnote : Option Bool
deriving DecidableEq

structure PersistedSorts where
  highlight : Option String
  comment : Option String
  footnote : Option String
deriving DecidableEq

structure PersistedData where
  fontSize : Option Int
  showHighlights : Option Bool
  showComments : Option Bool
  showFootnotes : Option Bool
  defaultSort : Option String
  sectionsCollapsed : Option PersistedFlags
  sectionSorts : Option PersistedSorts
deriving DecidableEq

/-- `loadSettings` from src/main.ts: shallow `Object.assign` of the blob over
`DEFAULT_SETTINGS`, then an explicit per-key deep merge of the two nested
records. -/
def loadSettings (data : Option PersistedData) : HighlightsSidebarSettings :=
  { fontSize := (data.bind PersistedData.fontSize).getD DEFAULT_SETTINGS.fontSize
    showHighlights := (data.bind PersistedData.showHighlights).getD DEFAULT_SETTINGS.showHighlights
    showComments := (data.bind PersistedData.showComments).getD DEFAULT_SETTINGS.showComments
    showFootnotes := (data.bind PersistedData.showFootnotes).getD DEFAULT_SETTINGS.showFootnotes
    defaultSort := (data.bind PersistedData.defaultSort).getD DEFAULT_SETTINGS.defaultSort
    sectionsCollapsed :=
      { highlight := ((data.bind PersistedData.sectionsCollapsed).bind PersistedFlags.highlight).getD
          DEFAULT_SETTINGS.sectionsCollapsed.highlight
        comment := ((data.bind PersistedData.sectionsCollapsed).bind PersistedFlags.comment).getD
          DEFAULT_SETTINGS.sectionsCollapsed.comment
        footnote := ((data.bind PersistedData.sectionsCollapsed).bind PersistedFlags.footnote).getD
          DEFAULT_SETTINGS.sectionsCollapsed.footnote }
    sectionSorts :=
      { highlight := ((data.bind PersistedData.sectionSorts).bind PersistedSorts.highlight).getD
          DEFAULT_SETTINGS.sectionSorts.highlight
        comment := ((data.bind PersistedData.sectionSorts).bind PersistedSorts.comment).getD
          DEFAULT_SETTINGS.sectionSorts.comment
        footnote := ((data.bind PersistedData.sectionSorts).bind PersistedSorts.footnote).getD
          DEFAULT_SETTINGS.sectionSorts.footnote } }

/-- The "Default sort order" dropdown `onChange` handler: set the default and
reset all three per-section sorts to the new value. -/
def setDefaultSortOrder (s : HighlightsSidebarSettings) (order : String) :
    HighlightsSidebarSettings :=
  { s with defaultSort := order
           sectionSorts := { highlight := order, comment := order, footnote := order } }

/-- The "Increase sidebar font size" command. -/
def increaseFontSize (s : HighlightsSidebarSettings) : HighlightsSidebarSettings :=
  { s with fontSize := min 24 (s.fontSize + 1) }

/-- The "Decrease sidebar font size" command. -/
def decreaseFontSize (s : HighlightsSidebarSettings) : HighlightsSidebarSettings :=
  { s with fontSize := max 10 (s.fontSize - 1) }

-- ── Render plan (renderSections + isSectionVisible) ────────────────────────

def isSectionVisible (s : HighlightsSidebarSettings) : ItemType → Bool
  | .highlight => s.showHighlights
  | .comment => s.showComments
  | .footnote => s.showFootnotes

def sectionSortGet (s : SectionSorts) : ItemType → String
  | .highlight => s.highlight
  | .comment => s.comment
  | .footnote => s.footnote

def sectionCollapsedGet (s : SectionFlags) : ItemType → Bool
  | .highlight => s.highlight
  | .comment => s.comment
  | .footnote => s.footnote

/-- `settings.sectionSorts[sec.type] || settings.defaultSort`: the JS `||`
falls through on the only falsy string, the empty string. -/
def effectiveSort (s : HighlightsSidebarSettings) (t : ItemType) : String :=
  if sectionSortGet s.sectionSorts t = "" then s.defaultSort
  else sectionSortGet s.sectionSorts t

/-- One section of the sidebar as rendered by `renderSections`: its category,
its sorted item list, the count shown in the header, the collapsed flag and
the sort order shown on the sort button. -/
structure SectionPlan where
  secType : ItemType
  items : List ParsedItem
  count : Nat
  collapsed : Bool
  sortOrder : String
deriving DecidableEq

/-- The fixed display order of `sectionMeta`. -/
def sectionOrder : List ItemType := [.highlight, .comment, .footnote]

/-- The body of the section loop in `renderSections`: a hidden section is
skipped (`continue`), and so is a visible section whose post-filter group is
empty. -/
def buildSection (fi : List ParsedItem) (s : HighlightsSidebarSettings) (t : ItemType) :
    Option SectionPlan :=
  if isSectionVisible s t then
    if (fi.filter (fun it => it.type == t)).length = 0 then none
    else
      some ⟨t, sortItems (fi.filter (fun it => it.type == t)) (effectiveSort s t),
        (fi.filter (fun it => it.type == t)).length,
        sectionCollapsedGet s.sectionsCollapsed t, effectiveSort s t⟩
  else none

/-- The sections emitted by `renderSections` (grouping the filtered items by
category preserves their relative order, so each group equals a filter of the
filtered list by its category). -/
def renderSections (allItems : List ParsedItem) (searchQuery : List Char)
    (s : HighlightsSidebarSettings) : List SectionPlan :=
  sectionOrder.filterMap (buildSection (filterItems allItems searchQuery) s)

/-- No two positions of a list hold footnote records of the same line
(used to bound the number of footnote records per line). -/
def NotSameLineFn (a b : ParsedItem) : Prop :=
  ¬(a.type = ItemType.footnote ∧ b.type = ItemType.footnote ∧ a.line = b.line)

-- ════════════════════════════════════════════════════════════════════════════
-- Helper lemmas
-- ════════════════════════════════════════════════════════════════════════════

theorem mergeSort_pair {α : Type _} (le : α → α → Bool) (x y : α) :
    List.mergeSort [x, y] le = if le x y then [x, y] else [y, x] := by
  rw [List.mergeSort]
  simp [List.splitInTwo, List.merge, List.mergeSort]

theorem head?_dropWhile_false {α : Type _} {p : α → Bool} {l : List α} {c : α}
    (h : (l.dropWhile p).head? = some c) : p c = false := by
  have hx := List.head?_dropWhile_not p l
  rw [h] at hx
  exact hx

theorem getLast?_dropWhile_some {α : Type _} {p : α → Bool} :
    ∀ {l : List α} {c : α}, (l.dropWhile p).getLast? = some c → l.getLast? = some c := by
  intro l
  induction l with
  | nil => intro c h; simp at h
  | cons a l ih =>
    intro c h
    rw [List.dropWhile_cons] at h
    by_cases hp : p a = true
    · rw [if_pos hp] at h
      have h2 := ih h
      cases l with
      | nil => simp at h2
      | cons b l2 => rw [List.getLast?_cons_cons]; exact h2
    · rw [if_neg hp] at h
      exact h

theorem noEdgeSpace_trimList (s : List Char) : noEdgeSpace (trimList s) = true := by
  rw [noEdgeSpace, Bool.and_eq_true]
  constructor
  · rw [Bool.not_eq_true']
    rcases h : (trimList s).head? with _ | c
    · rfl
    · rw [trimList, List.head?_reverse] at h
      have h2 := getLast?_dropWhile_some h
      rw [List.getLast?_reverse] at h2
      simpa using head?_dropWhile_false h2
  · rw [Bool.not_eq_true']
    rcases h : (trimList s).getLast? with _ | c
    · rfl
    · rw [trimList, List.getLast?_reverse] at h
      simpa using head?_dropWhile_false h

theorem line_of_mem_parseLine {i : Nat} {l : List Char} {it : ParsedItem}
    (h : it ∈ parseLine i l) : it.line = i := by
  simp only [parseLine, List.mem_append, List.mem_map] at h
  rcases h with ((((⟨m, _, rfl⟩ | ⟨m, _, rfl⟩) | ⟨m, _, rfl⟩) | ⟨m, _, rfl⟩) | ⟨m, _, rfl⟩) <;> rfl

theorem exists_parseLine_of_mem : ∀ {k : Nat} {ls : List (List Char)} {it : ParsedItem},
    it ∈ parseContentAux k ls → ∃ i l, it ∈ parseLine i l := by
  intro k ls
  induction ls generalizing k with
  | nil => intro it h; simp [parseContentAux] at h
  | cons l ls ih =>
    intro it h
    rw [parseContentAux, List.mem_append] at h
    rcases h with h | h
    · exact ⟨k, l, h⟩
    · exact ih h

theorem le_line_of_mem_parseContentAux : ∀ {k : Nat} {ls : List (List Char)} {it : ParsedItem},
    it ∈ parseContentAux k ls → k ≤ it.line := by
  intro k ls
  induction ls generalizing k with
  | nil => intro it h; simp [parseContentAux] at h
  | cons l ls ih =>
    intro it h
    rw [parseContentAux, List.mem_append] at h
    rcases h with h | h
    · exact (line_of_mem_parseLine h).ge
    · exact Nat.le_of_succ_le (ih h)

theorem pairwise_line_parseContentAux : ∀ (k : Nat) (ls : List (List Char)),
    (parseContentAux k ls).Pairwise (fun a b => a.line ≤ b.line) := by
  intro k ls
  induction ls generalizing k with
  | nil => exact List.Pairwise.nil
  | cons l ls ih =>
    rw [parseContentAux]
    apply List.pairwise_append.mpr
    refine ⟨List.pairwise_of_forall_mem_list ?_, ih (k + 1), ?_⟩
    · intro a ha b hb
      rw [line_of_mem_parseLine ha, line_of_mem_parseLine hb]
    · intro a ha b hb
      rw [line_of_mem_parseLine ha]
      exact Nat.le_of_succ_le (le_line_of_mem_parseContentAux hb)

theorem lineAscLE_trans : ∀ (a b c : ParsedItem),
    lineAscLE a b → lineAscLE b c → lineAscLE a c := by
  intro a b c h1 h2
  simp only [lineAscLE, Bool.or_eq_true, Bool.and_eq_true, decide_eq_true_eq] at *
  omega

theorem lineAscLE_total : ∀ (a b : ParsedItem), lineAscLE a b || lineAscLE b a := by
  intro a b
  simp only [lineAscLE, Bool.or_eq_true, Bool.and_eq_true, decide_eq_true_eq]
  omega

theorem sortItems_lineAsc (items : List ParsedItem) :
    sortItems items "line-asc" = items.mergeSort lineAscLE := by
  rw [sortItems, if_pos rfl]

theorem text_trim_of_mem_parseLine {i : Nat} {l : List Char} {it : ParsedItem}
    (h : it ∈ parseLine i l) (hc : it.type = ItemType.comment) :
    ∃ s, it.text = trimList s := by
  simp only [parseLine, List.mem_append, List.mem_map] at h
  rcases h with ((((⟨m, _, rfl⟩ | ⟨m, _, rfl⟩) | ⟨m, _, rfl⟩) | ⟨m, _, rfl⟩) | ⟨m, _, rfl⟩)
  · exact absurd hc (by simp [mkItem])
  · exact absurd hc (by simp [mkItem])
  · exact ⟨m.text, rfl⟩
  · exact ⟨m.text, rfl⟩
  · exact absurd hc (by simp [mkItem])

theorem startsWithCI_le_length : ∀ {p s : List Char} {ci : Bool},
    startsWithCI ci p s = true → p.length ≤ s.length := by
  intro p
  induction p with
  | nil => intro s ci _; simp
  | cons a ps ih =>
    intro s ci h
    cases s with
    | nil => simp [startsWithCI] at h
    | cons c cs =>
      simp only [startsWithCI, Bool.and_eq_true] at h
      simpa using Nat.succ_le_succ (ih h.2)

theorem footnoteHere_len {cs : List Char} {id body : List Char} {len : Nat}
    (h : footnoteHere cs = some (id, body, len)) : len = cs.length := by
  rw [footnoteHere] at h
  split_ifs at h with h1 h2 h3
  · simp only [Option.some.injEq, Prod.mk.injEq] at h
    obtain ⟨-, -, hlen⟩ := h
    have hop : 2 ≤ cs.length := by simpa using startsWithCI_le_length h1
    have hdropA : (cs.drop 2).length = cs.length - 2 := List.length_drop ..
    have hsplitA : ((cs.drop 2).takeWhile (fun c => c != ']')).length +
        ((cs.drop 2).dropWhile (fun c => c != ']')).length = (cs.drop 2).length := by
      rw [← List.length_append, List.takeWhile_append_dropWhile]
    have hcl : 2 ≤ ((cs.drop 2).dropWhile (fun c => c != ']')).length := by
      simpa using startsWithCI_le_length h3
    have hdropB : ((((cs.drop 2).dropWhile (fun c => c != ']')).drop 2)).length =
        ((cs.drop 2).dropWhile (fun c => c != ']')).length - 2 := List.length_drop ..
    have hsplitB : (((((cs.drop 2).dropWhile (fun c => c != ']')).drop 2)).takeWhile jsSpace).length +
        (((((cs.drop 2).dropWhile (fun c => c != ']')).drop 2)).dropWhile jsSpace).length =
        ((((cs.drop 2).dropWhile (fun c => c != ']')).drop 2)).length := by
      rw [← List.length_append, List.takeWhile_append_dropWhile]
    omega

theorem scanFootnoteAux_nil (fuel i : Nat) : scanFootnoteAux fuel [] i = [] := by
  cases fuel <;> rfl

theorem scanFootnoteAux_length_le : ∀ (fuel : Nat) (cs : List Char) (i : Nat),
    (scanFootnoteAux fuel cs i).length ≤ 1 := by
  intro fuel
  induction fuel with
  | zero => intro cs i; simp [scanFootnoteAux]
  | succ fuel ih =>
    intro cs i
    cases cs with
    | nil => simp [scanFootnoteAux]
    | cons c cs =>
      rw [scanFootnoteAux]
      split
      · rename_i id body len hf
        have hlen := footnoteHere_len hf
        have hdrop : (c :: cs).drop len = [] := by
          rw [hlen]; exact List.drop_length _
        simp [hdrop, scanFootnoteAux_nil]
      · exact ih cs (i + 1)

theorem scanFootnoteAux_span : ∀ (fuel : Nat) (cs : List Char) (i : Nat) (m : RawMatch),
    m ∈ scanFootnoteAux fuel cs i → m.index + m.len = i + cs.length := by
  intro fuel
  induction fuel with
  | zero => intro cs i m h; simp [scanFootnoteAux] at h
  | succ fuel ih =>
    intro cs i m h
    cases cs with
    | nil => simp [scanFootnoteAux] at h
    | cons c cs =>
      rw [scanFootnoteAux] at h
      split at h
      · rename_i id body len hf
        have hlen := footnoteHere_len hf
        have hdrop : (c :: cs).drop len = [] := by
          rw [hlen]; exact List.drop_length _
        rw [hdrop, scanFootnoteAux_nil] at h
        rcases List.mem_singleton.mp h with rfl
        simpa using hlen
      · have := ih cs (i + 1) m h
        simp only [List.length_cons]
        omega

theorem scanFootnote_span {l : List Char} {m : RawMatch} (h : m ∈ scanFootnote l) :
    m.index + m.len = l.length := by
  simpa using scanFootnoteAux_span l.length l 0 m h

theorem fn_item_of_mem_parseLine {i : Nat} {l : List Char} {it : ParsedItem}
    (h : it ∈ parseLine i l) (hty : it.type = ItemType.footnote) :
    ∃ m ∈ scanFootnote l, it = mkItem .footnote i m := by
  simp only [parseLine, List.mem_append, List.mem_map] at h
  rcases h with ((((⟨m, hm, rfl⟩ | ⟨m, hm, rfl⟩) | ⟨m, hm, rfl⟩) | ⟨m, hm, rfl⟩) | ⟨m, hm, rfl⟩)
  · exact absurd hty (by simp [mkItem])
  · exact absurd hty (by simp [mkItem])
  · exact absurd hty (by simp [mkTrimmedItem])
  · exact absurd hty (by simp [mkTrimmedItem])
  · exact ⟨m, hm, rfl⟩

theorem pairwise_nsl_append {l₁ l₂ : List ParsedItem}
    (h1 : ∀ a ∈ l₁, a.type ≠ ItemType.footnote)
    (h2 : l₂.Pairwise NotSameLineFn) : (l₁ ++ l₂).Pairwise NotSameLineFn := by
  apply List.pairwise_append.mpr
  refine ⟨List.pairwise_of_forall_mem_list ?_, h2, ?_⟩
  · intro a ha b _ hc
    exact h1 a ha hc.1
  · intro a ha b _ hc
    exact h1 a ha hc.1

theorem pairwise_of_length_le_one {α : Type _} {R : α → α → Prop} :
    ∀ {l : List α}, l.length ≤ 1 → l.Pairwise R
  | [], _ => .nil
  | [a], _ => List.pairwise_singleton R a
  | _ :: _ :: _, h => by simp at h

theorem pairwise_nsl_parseLine (i : Nat) (l : List Char) :
    (parseLine i l).Pairwise NotSameLineFn := by
  rw [parseLine]
  simp only [List.append_assoc]
  apply pairwise_nsl_append
  · intro a ha; obtain ⟨m, -, rfl⟩ := List.mem_map.mp ha; simp [mkItem]
  apply pairwise_nsl_append
  · intro a ha; obtain ⟨m, -, rfl⟩ := List.mem_map.mp ha; simp [mkItem]
  apply pairwise_nsl_append
  · intro a ha; obtain ⟨m, -, rfl⟩ := List.mem_map.mp ha; simp [mkTrimmedItem]
  apply pairwise_nsl_append
  · intro a ha; obtain ⟨m, -, rfl⟩ := List.mem_map.mp ha; simp [mkTrimmedItem]
  apply pairwise_of_length_le_one
  rw [List.length_map]
  exact scanFootnoteAux_length_le l.length l 0

theorem pairwise_nsl_parseContentAux : ∀ (k : Nat) (ls : List (List Char)),
    (parseContentAux k ls).Pairwise NotSameLineFn := by
  intro k ls
  induction ls generalizing k with
  | nil => exact .nil
  | cons l ls ih =>
    rw [parseContentAux]
    apply List.pairwise_append.mpr
    refine ⟨pairwise_nsl_parseLine k l, ih (k + 1), ?_⟩
    intro a ha b hb hc
    have h1 := line_of_mem_parseLine ha
    have h2 := le_line_of_mem_parseContentAux hb
    omega

theorem filter_fn_line_length_le (content : List Char) (i : Nat) :
    ((parseContent content).filter
      (fun x => x.type == ItemType.footnote && x.line == i)).length ≤ 1 := by
  have hpw : (parseContent content).Pairwise NotSameLineFn :=
    pairwise_nsl_parseContentAux 0 _
  have hpf := hpw.filter (fun x => x.type == ItemType.footnote && x.line == i)
  cases hres : (parseContent content).filter
      (fun x => x.type == ItemType.footnote && x.line == i) with
  | nil => simp
  | cons a t =>
    cases t with
    | nil => simp
    | cons b t2 =>
      exfalso
      rw [hres] at hpf
      have hab := List.rel_of_pairwise_cons hpf (List.mem_cons_self b t2)
      have hamem : a ∈ (parseContent content).filter
          (fun x => x.type == ItemType.footnote && x.line == i) := by
        rw [hres]; exact List.mem_cons_self _ _
      have hbmem : b ∈ (parseContent content).filter
          (fun x => x.type == ItemType.footnote && x.line == i) := by
        rw [hres]; exact List.mem_cons_of_mem _ (List.mem_cons_self _ _)
      have hpa := (List.mem_filter.mp hamem).2
      have hpb := (List.mem_filter.mp hbmem).2
      simp only [Bool.and_eq_true, beq_iff_eq] at hpa hpb
      exact hab ⟨hpa.1, hpb.1, by rw [hpa.2, hpb.2]⟩

theorem span_of_mem_parseContentAux : ∀ {k : Nat} {ls : List (List Char)} {it : ParsedItem},
    it ∈ parseContentAux k ls → it.type = ItemType.footnote →
    it.ch + it.matchLength = (ls.getD (it.line - k) []).length := by
  intro k ls
  induction ls generalizing k with
  | nil => intro it h _; simp [parseContentAux] at h
  | cons l ls ih =>
    intro it h hty
    rw [parseContentAux, List.mem_append] at h
    rcases h with h | h
    · obtain ⟨m, hm, rfl⟩ := fn_item_of_mem_parseLine h hty
      simp only [mkItem, Nat.sub_self]
      simpa using scanFootnote_span hm
    · have hk1 := le_line_of_mem_parseContentAux h
      have hspan := ih h hty
      have hsub : it.line - k = (it.line - (k + 1)) + 1 := by omega
      rw [hsub, List.getD_cons_succ]
      exact hspan

theorem buildSection_eq_some {fi : List ParsedItem} {s : HighlightsSidebarSettings}
    {t : ItemType} {sec : SectionPlan} :
    buildSection fi s t = some sec ↔
      isSectionVisible s t = true ∧
      (fi.filter (fun it => it.type == t)).length ≠ 0 ∧
      sec = ⟨t, sortItems (fi.filter (fun it => it.type == t)) (effectiveSort s t),
        (fi.filter (fun it => it.type == t)).length,
        sectionCollapsedGet s.sectionsCollapsed t, effectiveSort s t⟩ := by
  rw [buildSection]
  split_ifs with h1 h2
  · simp [h1, h2]
  · simp [h1, h2, eq_comm]
  · simp [h1]

-- ════════════════════════════════════════════════════════════════════════════
-- Claims
-- ════════════════════════════════════════════════════════════════════════════

/-- Claim C1: parsing the document `"==alpha== and <mark>beta</mark>\n%%note
one%%\n[^1]: see appendix"` yields exactly four records in this order: a
highlight "alpha" at line 0 column 0, a highlight "beta" at line 0 column 14
(where `<mark>` begins), a comment "note one" at line 1 column 0, and a
footnote `[^1]: see appendix` at line 2 column 0. -/
theorem C1_example_doc :
    parseContent ("==alpha== and <mark>beta</mark>\n%%note one%%\n[^1]: see appendix").toList =
      [⟨.highlight, "alpha".toList, 0, 0, 9⟩,
       ⟨.highlight, "beta".toList, 0, 14, 17⟩,
       ⟨.comment, "note one".toList, 1, 0, 12⟩,
       ⟨.footnote, "[^1]: see appendix".toList, 2, 0, 18⟩] := by
  decide

/-- Claim C2 is false as stated: parsing `==a==b==c==` does not produce the
texts "a" then "b". -/
theorem C2_counterexample :
    (parseContent ("==a==b==c==").toList).map ParsedItem.text ≠ [['a'], ['b']] := by
  decide

/-- Claim C2 (amended): parsing `==a==b==c==` produces exactly two highlight
records with texts "a" (columns 0-4) and then "c" (columns 6-10): after the
non-greedy match `==a==` is consumed, scanning resumes at the `b`, the next
opening `==` is found at column 6, and its shortest close yields `==c==`; the
middle `b==` is what remains unmatched, not the trailing `==c==`. -/
theorem C2_two_highlights :
    parseContent ("==a==b==c==").toList =
      [⟨.highlight, ['a'], 0, 0, 5⟩, ⟨.highlight, ['c'], 0, 6, 5⟩] := by
  decide

/-- Claim C3 is false as stated: for the document `<mark>x</mark> ==y==` the
parser emits the `==y==` highlight (column 15) before the `<mark>` highlight
(column 0), because each line is scanned per pattern group; sorting by
LineAscending therefore changes the order. -/
theorem C3_counterexample :
    sortItems (parseContent ("<mark>x</mark> ==y==").toList) "line-asc" ≠
      parseContent ("<mark>x</mark> ==y==").toList := by
  have hp : parseContent ("<mark>x</mark> ==y==").toList =
      [⟨.highlight, ['y'], 0, 15, 5⟩, ⟨.highlight, ['x'], 0, 0, 14⟩] := by decide
  rw [hp, sortItems_lineAsc, mergeSort_pair]
  decide

/-- Claim C3 (amended): for every document the parser's output is in
non-decreasing line order, and sorting it with LineAscending yields a
permutation of it that is sorted by (line, column); equality with the parse
output itself does not hold in general, because within one line records are
emitted grouped by pattern kind. -/
theorem C3_order_invariant (content : List Char) :
    (parseContent content).Pairwise (fun a b => a.line ≤ b.line)
    ∧ (sortItems (parseContent content) "line-asc").Perm (parseContent content)
    ∧ (sortItems (parseContent content) "line-asc").Pairwise
        (fun a b => lineAscLE a b = true) := by
  refine ⟨pairwise_line_parseContentAux 0 _, ?_, ?_⟩
  · rw [sortItems_lineAsc]
    exact List.mergeSort_perm _ _
  · rw [sortItems_lineAsc]
    exact List.sorted_mergeSort lineAscLE_trans lineAscLE_total _

/-- Claim C4 is false as stated: the document `== a ==` parses to a single
highlight whose text `" a "` carries leading and trailing whitespace (the
highlight capture is not trimmed). -/
theorem C4_counterexample :
    (parseContent ("== a ==").toList).map (fun it => noEdgeSpace it.text) = [false] := by
  decide

/-- Claim C4 (amended): only comment records have trimmed text: for every
document, every record of category comment has no leading or trailing
whitespace in its text (highlight texts are the raw capture and footnote
texts may carry trailing whitespace from the body). -/
theorem C4_comment_trimmed (content : List Char) (it : ParsedItem)
    (hmem : it ∈ parseContent content) (hty : it.type = ItemType.comment) :
    noEdgeSpace it.text = true := by
  obtain ⟨i, l, hpl⟩ := exists_parseLine_of_mem hmem
  obtain ⟨s, hs⟩ := text_trim_of_mem_parseLine hpl hty
  rw [hs]
  exact noEdgeSpace_trimList s

theorem C4_witness :
    noEdgeSpace (ParsedItem.mk .comment ['x'] 0 0 7).text = true :=
  C4_comment_trimmed ("%% x %%").toList ⟨.comment, ['x'], 0, 0, 7⟩ (by decide) rfl

/-- Claim C5 is false as stated: sorting two records that are out of line
order with an unknown order value returns them unchanged, which differs from
the LineAscending result. -/
theorem C5_counterexample :
    sortItems [⟨.highlight, [], 1, 0, 0⟩, ⟨.highlight, [], 0, 0, 0⟩] "bogus" ≠
      sortItems [⟨.highlight, [], 1, 0, 0⟩, ⟨.highlight, [], 0, 0, 0⟩] "line-asc" := by
  rw [sortItems_lineAsc, mergeSort_pair]
  decide

/-- Claim C5 (amended): a sort-order value outside the four known orders does
not fail, but it falls through the `switch` to the `default` branch, which
returns the records unchanged (a copy of the input), not the LineAscending
sort. -/
theorem C5_unknown_order_id (items : List ParsedItem) (order : String)
    (h1 : order ≠ "line-asc") (h2 : order ≠ "line-desc") (h3 : order ≠ "a-z")
    (h4 : order ≠ "z-a") : sortItems items order = items := by
  rw [sortItems, if_neg h1, if_neg h2, if_neg h3, if_neg h4]

theorem C5_witness :
    sortItems [⟨ItemType.highlight, [], 1, 0, 0⟩] "bogus" =
      [⟨ItemType.highlight, [], 1, 0, 0⟩] :=
  C5_unknown_order_id [⟨ItemType.highlight, [], 1, 0, 0⟩] "bogus"
    (by decide) (by decide) (by decide) (by decide)

/-- Claim C6 is false as stated: loading a persisted blob whose font size is
999 yields 999, not 24 — `loadSettings` merges the blob over the defaults
without clamping. -/
theorem C6_counterexample :
    (loadSettings (some ⟨some 999, none, none, none, none, none, none⟩)).fontSize = 999 ∧
    (loadSettings (some ⟨some 999, none, none, none, none, none, none⟩)).fontSize ≠ 24 := by
  decide

/-- Claim C6 (amended): the load path performs no clamping: a font size
present in the persisted blob is taken verbatim (the [10, 24] range is
enforced only by the settings slider and by the increase/decrease font-size
commands, which use `min 24` / `max 10`). -/
theorem C6_load_no_clamp (d : PersistedData) (v : Int) (h : d.fontSize = some v) :
    (loadSettings (some d)).fontSize = v := by
  simp [loadSettings, h]

theorem C6_witness :
    (loadSettings (some ⟨some 999, none, none, none, none, none, none⟩)).fontSize = 999 :=
  C6_load_no_clamp ⟨some 999, none, none, none, none, none, none⟩ 999 rfl

/-- Claim C7: setting the default sort order to any value sets
`defaultSort` to that value and resets the per-category sort order of all
three categories to it, overwriting any prior per-category customization. -/
theorem C7_default_sort_reset (s : HighlightsSidebarSettings) (order : String) :
    (setDefaultSortOrder s order).defaultSort = order ∧
    (setDefaultSortOrder s order).sectionSorts.highlight = order ∧
    (setDefaultSortOrder s order).sectionSorts.comment = order ∧
    (setDefaultSortOrder s order).sectionSorts.footnote = order :=
  ⟨rfl, rfl, rfl, rfl⟩

/-- Claim C8: if the query lower-cases and trims to empty, filtering returns
the records unchanged; otherwise it keeps exactly the records whose
lower-cased text contains the trimmed lower-cased query as a substring; in
either case the result is a subsequence of the input (order preserved). -/
theorem C8_filter_contract (items : List ParsedItem) (q : List Char) :
    (trimList (lowerList q) = [] → filterItems items q = items)
    ∧ (trimList (lowerList q) ≠ [] → filterItems items q =
        items.filter (fun it => containsSub (lowerList it.text) (trimList (lowerList q))))
    ∧ (filterItems items q).Sublist items := by
  refine ⟨?_, ?_, ?_⟩
  · intro h
    have hlen : ¬((trimList (lowerList q)).length > 0) := by simp [h]
    rw [filterItems, if_neg hlen]
  · intro h
    have hlen : (trimList (lowerList q)).length > 0 := List.length_pos.mpr h
    rw [filterItems, if_pos hlen]
  · rw [filterItems]
    split
    · exact List.filter_sublist _
    · exact List.Sublist.refl _

theorem C8_witness :
    filterItems [⟨ItemType.comment, ['a'], 0, 0, 2⟩] [' '] =
      [⟨ItemType.comment, ['a'], 0, 0, 2⟩] ∧
    filterItems [⟨ItemType.comment, ['a'], 0, 0, 2⟩] ['b'] =
      [⟨ItemType.comment, ['a'], 0, 0, 2⟩].filter
        (fun it => containsSub (lowerList it.text) (trimList (lowerList ['b']))) :=
  ⟨(C8_filter_contract _ _).1 (by decide), (C8_filter_contract _ _).2.1 (by decide)⟩

/-- Claim C9 is false as stated: with all categories visible and one
highlight record present (so at least one post-filter record overall), the
render output has no comment section even though comments are visible — a
visible category whose post-filter group is empty is also omitted. -/
theorem C9_counterexample :
    (renderSections [⟨.highlight, ['x'], 0, 0, 5⟩] [] DEFAULT_SETTINGS).map
        SectionPlan.secType = [ItemType.highlight] ∧
    isSectionVisible DEFAULT_SETTINGS ItemType.comment = true ∧
    (filterItems [⟨.highlight, ['x'], 0, 0, 5⟩] []).length ≠ 0 := by
  refine ⟨by decide, rfl, by decide⟩

/-- Claim C9 (amended): a section for category `t` appears in the render
output iff `t` is visible AND its post-filter group is non-empty; every
emitted section carries the group's sorted record list and its post-filter
count. -/
theorem C9_section_iff (allItems : List ParsedItem) (q : List Char)
    (s : HighlightsSidebarSettings) (t : ItemType) :
    ((∃ sec ∈ renderSections allItems q s, sec.secType = t) ↔
      (isSectionVisible s t = true ∧
        ((filterItems allItems q).filter (fun it => it.type == t)).length ≠ 0))
    ∧ ∀ sec ∈ renderSections allItems q s, sec.secType = t →
        sec.items = sortItems ((filterItems allItems q).filter (fun it => it.type == t))
            (effectiveSort s t) ∧
        sec.count = ((filterItems allItems q).filter (fun it => it.type == t)).length := by
  constructor
  · constructor
    · rintro ⟨sec, hmem, hty⟩
      rw [renderSections, List.mem_filterMap] at hmem
      obtain ⟨t2, ht2, hbs⟩ := hmem
      rw [buildSection_eq_some] at hbs
      obtain ⟨hv, hne, rfl⟩ := hbs
      have ht : t2 = t := hty
      subst ht
      exact ⟨hv, hne⟩
    · rintro ⟨hv, hne⟩
      refine ⟨⟨t, sortItems ((filterItems allItems q).filter (fun it => it.type == t))
          (effectiveSort s t),
        ((filterItems allItems q).filter (fun it => it.type == t)).length,
        sectionCollapsedGet s.sectionsCollapsed t, effectiveSort s t⟩, ?_, rfl⟩
      rw [renderSections, List.mem_filterMap]
      exact ⟨t, by cases t <;> simp [sectionOrder], buildSection_eq_some.mpr ⟨hv, hne, rfl⟩⟩
  · intro sec hmem hty
    rw [renderSections, List.mem_filterMap] at hmem
    obtain ⟨t2, ht2, hbs⟩ := hmem
    rw [buildSection_eq_some] at hbs
    obtain ⟨hv, hne, rfl⟩ := hbs
    have ht : t2 = t := hty
    subst ht
    exact ⟨rfl, rfl⟩

theorem C9_witness :
    ∃ sec ∈ renderSections [⟨ItemType.highlight, ['x'], 0, 0, 5⟩] [] DEFAULT_SETTINGS,
      sec.secType = ItemType.highlight :=
  (C9_section_iff [⟨ItemType.highlight, ['x'], 0, 0, 5⟩] [] DEFAULT_SETTINGS
    ItemType.highlight).1.mpr ⟨rfl, by decide⟩

/-- Claim C10: every line contributes at most one footnote record, and every
footnote record's span extends to the end of its line: its column plus its
match length equals the line's length (so any second `[^id]:` occurrence on
the line lies inside the first footnote's text). -/
theorem C10_footnote_per_line (content : List Char) (i : Nat) :
    ((parseContent content).filter
        (fun x => x.type == ItemType.footnote && x.line == i)).length ≤ 1
    ∧ ∀ it ∈ parseContent content, it.type = ItemType.footnote →
        it.ch + it.matchLength = ((content.splitOn '\n').getD it.line []).length := by
  refine ⟨filter_fn_line_length_le content i, ?_⟩
  intro it hmem hty
  simpa using span_of_mem_parseContentAux hmem hty

theorem C10_witness :
    (ParsedItem.mk .footnote ("[^a]: x [^b]: y").toList 0 0 15).ch +
      (ParsedItem.mk .footnote ("[^a]: x [^b]: y").toList 0 0 15).matchLength =
      ((("[^a]: x [^b]: y").toList.splitOn '\n').getD
        (ParsedItem.mk .footnote ("[^a]: x [^b]: y").toList 0 0 15).line []).length :=
  (C10_footnote_per_line ("[^a]: x [^b]: y").toList 0).2
    ⟨.footnote, ("[^a]: x [^b]: y").toList, 0, 0, 15⟩ (by decide) rfl

end HighlightsSidebar
